import Mathlib

/-!
Verification of the spectra repository: a shallow embedding of the
scan-and-aggregate engine (src/spectra-core/src/scanner.rs together with the
data model in src/spectra-core/src/models.rs) and of the temporal velocity
engine (the get_velocity handler in src/server/src/main.rs), with theorems
settling the frozen behavioural claims about those components.

Machine integers are modelled as Nat (u64) and Int (i64) with explicit
reduction modulo 2 to the 64.  The Rust cast `as i64` wraps in every build
profile; arithmetic overflow wraps in release builds (the default deployment
profile), which is the semantics embedded here.
-/

namespace Spectra

/-! ### Machine integer helpers -/

/-- The modulus of u64 arithmetic. -/
def U64MOD : Nat := 2 ^ 64

/-- Wrapping u64 arithmetic: reduce a natural number modulo 2 to the 64. -/
def u64wrap (n : Nat) : Nat := n % U64MOD

/-- Model of the Rust cast `x as i64` applied to a u64 value `x < 2 to the 64`:
values below 2 to the 63 are unchanged, larger ones wrap to negatives.
This conversion is defined (wrapping) behaviour in every Rust build profile. -/
def u64ToI64 (n : Nat) : Int := if n < 2 ^ 63 then (n : Int) else (n : Int) - 2 ^ 64

/-- Reduce an integer into the i64 range, two-complement style. -/
def i64wrap (x : Int) : Int := (x + 2 ^ 63) % 2 ^ 64 - 2 ^ 63

/-- i64 subtraction with release-mode wrapping semantics. -/
def i64sub (a b : Int) : Int := i64wrap (a - b)

/-- i64 negation with release-mode wrapping semantics. -/
def i64neg (a : Int) : Int := i64wrap (-a)

/-- Model of the Rust method `i64::abs` (wrapping at the minimum value:
the absolute value of the i64 minimum is the i64 minimum again). -/
def i64abs (a : Int) : Int := i64wrap (a.natAbs : Int)

theorem i64wrap_eq_self {x : Int} (h1 : -(2 ^ 63) ≤ x) (h2 : x < 2 ^ 63) :
    i64wrap x = x := by
  unfold i64wrap
  have h3 : 0 ≤ x + 2 ^ 63 := by omega
  have h4 : x + 2 ^ 63 < 2 ^ 64 := by omega
  rw [Int.emod_eq_of_lt h3 h4]
  omega

theorem u64ToI64_eq_self {n : Nat} (h : n < 2 ^ 63) : u64ToI64 n = (n : Int) := by
  unfold u64ToI64
  rw [if_pos h]

/-! ### Data model of the scan engine (src/spectra-core/src/models.rs)

`FileRecord` is `{ path: String, size_bytes: u64 }`; its `Ord` instance in
models.rs is reversed (`other.size_bytes.cmp(&self.size_bytes)`), so inside
`BinaryHeap` the greatest element is the record of least `size_bytes`. -/

structure FileRecord where
  path : String
  size_bytes : Nat
deriving DecidableEq, Repr

structure ExtensionStat where
  count : Nat
  size : Nat
deriving DecidableEq, Repr

/-- Classification of a walked directory entry by its metadata. -/
inductive EntryKind where
  | file
  | dir
  | other
deriving DecidableEq, Repr

/-- One entry produced by the jwalk traversal in Scanner::scan.  The walk
iterator yields Ok entries (Err items carry no data and are discarded by
`.flatten()` in the source); `path` is the displayed full path, `name` the
final path component (the input of `Path::extension`), `size` the u64
`meta.len()`, and `metaOk` records whether `dir_entry.metadata()` succeeded. -/
structure WalkEntry where
  path : String
  name : String
  kind : EntryKind
  size : Nat
  metaOk : Bool
deriving DecidableEq, Repr

/-! ### Extension extraction (Rust `Path::extension` plus `to_lowercase`) -/

/-- The characters after the last dot of the list, or none when no dot occurs. -/
def afterLastDot : List Char → Option (List Char)
  | [] => none
  | c :: cs =>
    match afterLastDot cs with
    | some e => some e
    | none => if c = '.' then some cs else none

/-- Model of Rust `Path::extension()` applied to a file name (the final path
component): the portion after the last dot; none when there is no dot, when the
name is a sole dot or double dot, or when the only dot is the leading one
(hidden files such as .gitignore have no extension). -/
def rustExtension (name : String) : Option String :=
  if name = "." ∨ name = ".." then none
  else
    match name.toList with
    | '.' :: rest => (afterLastDot rest).map (fun e => String.mk e)
    | cs => (afterLastDot cs).map (fun e => String.mk e)

/-- Model of Rust `str::to_lowercase` (character-wise lowering; agrees with the
Rust function on ASCII, which is the case relevant to file extensions). -/
def rustLowercase (s : String) : String := String.mk (s.toList.map Char.toLower)

/-! ### The extension ledger (the `extensions` HashMap in Scanner::scan)

The HashMap is modelled as an association list with unique keys; the map has no
meaningful order in the source, and no claim depends on the order, so the list
order is an artefact of the model. -/

/-- Association list model of `HashMap<String, ExtensionStat>`. -/
abbrev Extensions := List (String × ExtensionStat)

/-- Lookup in the extension ledger. -/
def extLookup (m : Extensions) (k : String) : Option ExtensionStat :=
  (m.find? (fun p => p.1 == k)).map (fun p => p.2)

/-- Model of `stats.extensions.entry(ext).or_default()` followed by
`entry.count += 1; entry.size += size` (u64 wrapping increments). -/
def recordExt (m : Extensions) (k : String) (size : Nat) : Extensions :=
  match m with
  | [] => [(k, ⟨u64wrap 1, u64wrap size⟩)]
  | (k0, st) :: rest =>
    if k0 = k then (k0, ⟨u64wrap (st.count + 1), u64wrap (st.size + size)⟩) :: rest
    else (k0, st) :: recordExt rest k size

/-! ### The bounded top-K heap (BinaryHeap<FileRecord> in Scanner::scan)

Because the Ord of FileRecord is reversed, `BinaryHeap::pop` removes a record
of minimal `size_bytes`; among several records of equal minimal size the heap
makes an unspecified choice, and the model removes the first one held. -/

abbrev Heap := List FileRecord

/-- Model of `BinaryHeap::push`. -/
def heapPush (h : Heap) (r : FileRecord) : Heap := r :: h

/-- The least `size_bytes` among the held records (0 for the empty heap,
which the scanner never pops). -/
def heapMinSize : Heap → Nat
  | [] => 0
  | [r] => r.size_bytes
  | r :: rest => min r.size_bytes (heapMinSize rest)

/-- Remove the first record carrying the given size. -/
def removeFirstWithSize : Heap → Nat → Heap
  | [], _ => []
  | r :: rest, s => if r.size_bytes = s then rest else r :: removeFirstWithSize rest s

/-- Model of `BinaryHeap::pop` under the reversed Ord of FileRecord: remove a
record of minimal `size_bytes`. -/
def heapPop (h : Heap) : Heap := removeFirstWithSize h (heapMinSize h)

/-- Model of `BinaryHeap::into_sorted_vec`: the held records in ascending
order of the reversed Ord, that is in descending order of `size_bytes`
(ties keep the model list order; the source order among ties is unspecified,
and no claim depends on it). -/
def intoSortedVec (h : Heap) : List FileRecord :=
  h.insertionSort (fun a b => b.size_bytes ≤ a.size_bytes)

/-! ### Scanner::scan (src/spectra-core/src/scanner.rs) -/

/-- The mutable accumulators of one scan invocation. -/
structure ScanState where
  total_files : Nat
  total_folders : Nat
  total_size_bytes : Nat
  extensions : Extensions
  heap : Heap
deriving DecidableEq, Repr

def scanInit : ScanState := ⟨0, 0, 0, [], []⟩

/-- The body of the walk loop of Scanner::scan for a single entry: entries with
failing metadata are skipped; a regular file bumps the u64 totals, records its
extension (when present) in the ledger, and is offered to the heap, which is
popped back to `top_limit` records whenever the push made it larger; a
directory bumps `total_folders`; anything else is ignored. -/
def processEntry (top_limit : Nat) (st : ScanState) (e : WalkEntry) : ScanState :=
  if e.metaOk then
    match e.kind with
    | .file =>
      let st1 : ScanState := { st with
        total_files := u64wrap (st.total_files + 1),
        total_size_bytes := u64wrap (st.total_size_bytes + e.size) }
      let st2 : ScanState :=
        match rustExtension e.name with
        | some ext => { st1 with extensions := recordExt st1.extensions (rustLowercase ext) e.size }
        | none => st1
      let pushed := heapPush st2.heap ⟨e.path, e.size⟩
      { st2 with heap := if top_limit < pushed.length then heapPop pushed else pushed }
    | .dir => { st with total_folders := u64wrap (st.total_folders + 1) }
    | .other => st
  else st

/-- The aggregate scan result (scan_duration_ms, a wall-clock stamp, is not
modelled; no claim refers to it). -/
structure ScanStats where
  root_path : String
  total_files : Nat
  total_folders : Nat
  total_size_bytes : Nat
  extensions : Extensions
  top_files : List FileRecord
deriving DecidableEq, Repr

/-- The ScanStats built by Scanner::scan from the walked entries: fold the loop
body over the walk, then `into_sorted_vec` (descending by size, because the Ord
of FileRecord is reversed) followed by `.reverse()`. -/
def scanStats (root : String) (top_limit : Nat) (walk : List WalkEntry) : ScanStats :=
  let final := walk.foldl (processEntry top_limit) scanInit
  { root_path := root
    total_files := final.total_files
    total_folders := final.total_folders
    total_size_bytes := final.total_size_bytes
    extensions := final.extensions
    top_files := (intoSortedVec final.heap).reverse }

/-- Model of `Scanner::scan(&self) -> Result<ScanStats>`.  The `walk` argument
is the sequence of Ok entries yielded by jwalk; Err entries (including the one
produced when the root itself cannot be read, in which case the sequence of Ok
entries is empty) are discarded by `.flatten()` and carry no data.  The source
contains no error construction at all: the function returns Ok unconditionally,
and the repository defines no ScanError type. -/
def Scanner.scan (root : String) (top_limit : Nat) (walk : List WalkEntry) :
    Except String ScanStats :=
  .ok (scanStats root top_limit walk)

/-- The sum of the sizes of the regular files among the walked entries whose
metadata was readable (the files the scanner visits). -/
def sumFileSizes (walk : List WalkEntry) : Nat :=
  ((walk.filter (fun e => e.metaOk && e.kind == EntryKind.file)).map (fun e => e.size)).sum

/-! ### Data model of the velocity engine (src/server/src/main.rs) -/

/-- A snapshot ingested from an agent: timestamp is i64, the sizes and counts
are u64, and top_extensions lists triples (extension, total size, file count). -/
structure AgentSnapshot where
  agent_id : String
  timestamp : Int
  hostname : String
  total_size_bytes : Nat
  file_count : Nat
  top_extensions : List (String × Nat × Nat)
deriving DecidableEq, Repr

structure ExtensionDelta where
  extension : String
  size_delta : Int
  count_delta : Int
deriving DecidableEq, Repr

/-- The velocity report; bytes_per_second is an f64 in the source, modelled as
an exact rational (the claims concern the division formula and its zero guard,
not floating point rounding). -/
structure VelocityReport where
  agent_id : String
  t_start : Int
  t_end : Int
  duration_seconds : Int
  growth_bytes : Int
  growth_files : Int
  bytes_per_second : Rat
  extension_deltas : List ExtensionDelta
deriving DecidableEq, Repr

/-! ### The start-extension map (`HashMap<String, (u64, u64)>` in get_velocity)

Again an association list with unique keys.  The one place where the HashMap
iteration order is observable is the final loop over the residual map (the
extensions that disappeared); that order is randomized in Rust (RandomState),
so the velocity function below takes it as an explicit parameter. -/

abbrev ExtMap := List (String × Nat × Nat)

/-- HashMap lookup (also used for the plain `top_extensions` lists, whose first
matching triple is the relevant one when keys are unique). -/
def mapGet (m : ExtMap) (k : String) : Option (Nat × Nat) :=
  (m.find? (fun p => p.1 == k)).map (fun p => p.2)

/-- HashMap removal. -/
def mapRemove (m : ExtMap) (k : String) : ExtMap :=
  m.filter (fun p => !(p.1 == k))

/-- HashMap insert (overwrites an existing binding of the key). -/
def mapInsert (m : ExtMap) (k : String) (v : Nat × Nat) : ExtMap :=
  mapRemove m k ++ [(k, v.1, v.2)]

/-- The loop building `start_ext_map` from the start snapshot. -/
def buildStartMap (l : List (String × Nat × Nat)) : ExtMap :=
  l.foldl (fun m t => mapInsert m t.1 t.2) []

/-- The loop of get_velocity over the end-snapshot extensions: an extension
found in the start map yields the (wrapping) i64 differences and is removed
from the map as consumed; a new extension yields its own (cast) values.
Returns the pushed deltas together with the residual map. -/
def processEndExts (m : ExtMap) : List (String × Nat × Nat) → (List ExtensionDelta × ExtMap)
  | [] => ([], m)
  | (ext, es, ec) :: rest =>
    match mapGet m ext with
    | some (ss, sc) =>
      let d : ExtensionDelta :=
        ⟨ext, i64sub (u64ToI64 es) (u64ToI64 ss), i64sub (u64ToI64 ec) (u64ToI64 sc)⟩
      let r := processEndExts (mapRemove m ext) rest
      (d :: r.1, r.2)
    | none =>
      let d : ExtensionDelta := ⟨ext, u64ToI64 es, u64ToI64 ec⟩
      let r := processEndExts m rest
      (d :: r.1, r.2)

/-- The loop over the residual start map: extensions that disappeared yield
negated (wrapping) values. -/
def residualDeltas (m : ExtMap) : List ExtensionDelta :=
  m.map (fun t => ⟨t.1, i64neg (u64ToI64 t.2.1), i64neg (u64ToI64 t.2.2)⟩)

/-- The comparator of the final `sort_by`: descending absolute size impact
(the i64 `abs`, which wraps at the i64 minimum). -/
def deltaGE (a b : ExtensionDelta) : Prop := i64abs b.size_delta ≤ i64abs a.size_delta

instance : DecidableRel deltaGE := fun a b => by
  unfold deltaGE
  infer_instance

instance : IsTotal ExtensionDelta deltaGE :=
  ⟨fun a b => le_total (i64abs b.size_delta) (i64abs a.size_delta)⟩

instance : IsTrans ExtensionDelta deltaGE :=
  ⟨fun _ _ _ h1 h2 => le_trans h2 h1⟩

/-- Model of `extension_deltas.sort_by(|a, b| b.size_delta.abs().cmp(&a.size_delta.abs()))`:
a stable sort, descending by the i64 absolute value of size_delta. -/
def sortDeltas (l : List ExtensionDelta) : List ExtensionDelta :=
  l.insertionSort deltaGE

/-- The zeroed fallback report returned when either endpoint lookup yields no
snapshot (or a store error). -/
def zeroReport (agent_id : String) : VelocityReport :=
  ⟨agent_id, 0, 0, 0, 0, 0, 0, []⟩

/-- Model of the get_velocity computation once the two endpoint lookups have
been resolved.  `hashOrder` stands for the HashMap iteration order over the
residual start map in the disappeared-extensions loop: Rust hash maps iterate
in an unspecified, per-map randomized order, so the model receives the order as
a function (constrained to a permutation in the theorems).  The store lookups
themselves return `Option AgentSnapshot`; an Err lookup result in the source
lands in the same fallback match arm as a missing snapshot. -/
def getVelocity (agent_id : String) (startSnap endSnap : Option AgentSnapshot)
    (hashOrder : ExtMap → ExtMap) : VelocityReport :=
  match startSnap, endSnap with
  | some s, some e =>
    let size_diff := i64sub (u64ToI64 e.total_size_bytes) (u64ToI64 s.total_size_bytes)
    let file_diff := i64sub (u64ToI64 e.file_count) (u64ToI64 s.file_count)
    let duration := i64sub e.timestamp s.timestamp
    let r := processEndExts (buildStartMap s.top_extensions) e.top_extensions
    let deltas := r.1 ++ residualDeltas (hashOrder r.2)
    let velocity : Rat := if 0 < duration then (size_diff : Rat) / (duration : Rat) else 0
    ⟨agent_id, s.timestamp, e.timestamp, duration, size_diff, file_diff, velocity,
      sortDeltas deltas⟩
  | _, _ => zeroReport agent_id

/-- Model of the snapshot store query of get_velocity (`SELECT * FROM snapshots
WHERE agent_id = $agent_id AND timestamp <= $ts ORDER BY timestamp DESC LIMIT 1`):
the most recent snapshot of the agent at or before the bound.  The persistence
engine is an external collaborator; this is the documented contract of the
query (ties on the timestamp resolve to an unspecified snapshot; the model
keeps the earliest stored one). -/
def resolveSnap (store : List AgentSnapshot) (agent : String) (ts : Int) :
    Option AgentSnapshot :=
  (store.filter (fun s => s.agent_id == agent && decide (s.timestamp ≤ ts))).foldl
    (fun best s =>
      match best with
      | none => some s
      | some b => if b.timestamp < s.timestamp then some s else some b)
    none

/-- The whole velocity endpoint: resolve both boundaries against the store,
then compute the report. -/
def getVelocityHandler (store : List AgentSnapshot) (agent : String)
    (tstart tend : Int) (hashOrder : ExtMap → ExtMap) : VelocityReport :=
  getVelocity agent (resolveSnap store agent tstart) (resolveSnap store agent tend) hashOrder

/-- The delta that get_velocity produces for one end-snapshot extension triple,
given the start-snapshot extension list (used to state the reconciliation
theorem). -/
def endDeltaOf (startExts : ExtMap) (t : String × Nat × Nat) : ExtensionDelta :=
  match mapGet startExts t.1 with
  | some (ss, sc) =>
    ⟨t.1, i64sub (u64ToI64 t.2.1) (u64ToI64 ss), i64sub (u64ToI64 t.2.2) (u64ToI64 sc)⟩
  | none => ⟨t.1, u64ToI64 t.2.1, u64ToI64 t.2.2⟩

/-- The delta that get_velocity produces for one disappeared extension triple. -/
def goneDeltaOf (t : String × Nat × Nat) : ExtensionDelta :=
  ⟨t.1, i64neg (u64ToI64 t.2.1), i64neg (u64ToI64 t.2.2)⟩

/-! ### Helper lemmas about the heap -/

theorem heapMinSize_attained : ∀ (h : Heap), h ≠ [] → ∃ r ∈ h, r.size_bytes = heapMinSize h := by
  intro h
  induction h with
  | nil => intro hc; exact absurd rfl hc
  | cons r rest ih =>
    intro _
    cases rest with
    | nil => exact ⟨r, List.mem_cons_self r [], rfl⟩
    | cons r2 rest2 =>
      have hmin : heapMinSize (r :: r2 :: rest2) = min r.size_bytes (heapMinSize (r2 :: rest2)) := rfl
      rcases le_or_lt r.size_bytes (heapMinSize (r2 :: rest2)) with hle | hlt
      · exact ⟨r, List.mem_cons_self r _, by rw [hmin, min_eq_left hle]⟩
      · obtain ⟨m, hm, hms⟩ := ih (by simp)
        exact ⟨m, List.mem_cons_of_mem r hm, by rw [hmin, min_eq_right (le_of_lt hlt)]; exact hms⟩

theorem removeFirstWithSize_length :
    ∀ (h : Heap) (s : Nat), (∃ r ∈ h, r.size_bytes = s) →
      (removeFirstWithSize h s).length + 1 = h.length := by
  intro h s
  induction h with
  | nil => rintro ⟨m, hm, _⟩; exact absurd hm (List.not_mem_nil m)
  | cons r rest ih =>
    rintro ⟨m, hm, hms⟩
    by_cases hr : r.size_bytes = s
    · simp [removeFirstWithSize, hr]
    · have hmr : m ∈ rest := by
        rcases List.mem_cons.1 hm with hEq | hMem
        · exact absurd (hEq ▸ hms) hr
        · exact hMem
      simp only [removeFirstWithSize, if_neg hr, List.length_cons]
      rw [← ih ⟨m, hmr, hms⟩]

theorem heapPop_length {h : Heap} (hne : h ≠ []) : (heapPop h).length + 1 = h.length :=
  removeFirstWithSize_length h _ (heapMinSize_attained h hne)

theorem heapPop_cons_length (r : FileRecord) (h : Heap) :
    (heapPop (r :: h)).length = h.length := by
  have h1 := heapPop_length (h := r :: h) (by simp)
  simp only [List.length_cons] at h1
  omega

theorem offer_length_le {limit : Nat} {h : Heap} (r : FileRecord) (hle : h.length ≤ limit) :
    (if limit < (heapPush h r).length then heapPop (heapPush h r) else heapPush h r).length
      ≤ limit := by
  simp only [heapPush]
  split
  · rw [heapPop_cons_length]
    exact hle
  · rename_i hng
    simp only [List.length_cons] at hng ⊢
    omega

theorem processEntry_heap_length {limit : Nat} {st : ScanState} {e : WalkEntry}
    (hle : st.heap.length ≤ limit) : (processEntry limit st e).heap.length ≤ limit := by
  obtain ⟨p, nm, k, sz, mo⟩ := e
  cases mo
  · exact hle
  · cases k
    · unfold processEntry
      cases hre : rustExtension nm <;> simp only [hre] <;> exact offer_length_le _ hle
    · exact hle
    · exact hle

theorem foldl_heap_length (limit : Nat) :
    ∀ (walk : List WalkEntry) (st : ScanState), st.heap.length ≤ limit →
      ((walk.foldl (processEntry limit) st).heap).length ≤ limit := by
  intro walk
  induction walk with
  | nil => intro st h; simpa using h
  | cons e rest ih => intro st h; exact ih _ (processEntry_heap_length h)

/-! ### Claims about the scan engine -/

/-- C1 (code bug witness): scanning a root that holds exactly the two regular
files /r/a.bin of 10 bytes and /r/b.bin of 5 bytes with top_limit 2 returns
top_files ordered ASCENDING by size_bytes, [b.bin 5, a.bin 10].  The claim
(with the spec and with the comment in the source reading `Finalize top files
(sort descending)`) requires descending order [a.bin 10, b.bin 5]: because the
Ord of FileRecord is reversed, into_sorted_vec already yields descending sizes,
and the subsequent `.reverse()` flips the list to ascending. -/
theorem C1_top_files_order_bug :
    Scanner.scan "/r" 2
        [⟨"/r/a.bin", "a.bin", EntryKind.file, 10, true⟩,
         ⟨"/r/b.bin", "b.bin", EntryKind.file, 5, true⟩] =
      .ok ⟨"/r", 2, 0, 15, [("bin", ⟨2, 15⟩)], [⟨"/r/b.bin", 5⟩, ⟨"/r/a.bin", 10⟩]⟩ := by
  rfl

/-- C2 (counterexample): when the root cannot be accessed at all, the jwalk
iterator yields only an Err entry, which `.flatten()` discards, so the walk
contributes no Ok entries; Scanner::scan then still returns Ok with an empty
ScanStats instead of failing.  The claim asserts the invocation fails with a
RootUnreadable error and no partial result. -/
theorem C2_root_unreadable_counterexample :
    Scanner.scan "/locked" 5 [] = .ok ⟨"/locked", 0, 0, 0, [], []⟩ := rfl

/-- C2 (amended): Scanner::scan never fails: for every walk outcome it returns
Ok, and in particular an unreadable root (no readable entries at all) yields
the empty ScanStats with only root_path set; the repository defines no
ScanError or RootUnreadable value. -/
theorem C2_scan_never_fails (root : String) (limit : Nat) (walk : List WalkEntry) :
    (∃ st, Scanner.scan root limit walk = .ok st) ∧
      Scanner.scan root limit [] = .ok ⟨root, 0, 0, 0, [], []⟩ :=
  ⟨⟨scanStats root limit walk, rfl⟩, rfl⟩

/-- C3 (counterexample): with top_limit 1, after one offered file the heap
holds 1 record, and during the handling of the second offered record — after
the push and before the conditional pop — the heap transiently holds 2 records,
exceeding K; the completed offer brings it back to 1.  The claim asserts the
size never exceeds K even transiently within a single offer. -/
theorem C3_transient_overflow_counterexample :
    (processEntry 1 scanInit ⟨"/r/a", "a", EntryKind.file, 5, true⟩).heap.length = 1 ∧
    (heapPush (processEntry 1 scanInit ⟨"/r/a", "a", EntryKind.file, 5, true⟩).heap
        ⟨"/r/b", 7⟩).length = 2 ∧
    ¬ (heapPush (processEntry 1 scanInit ⟨"/r/a", "a", EntryKind.file, 5, true⟩).heap
        ⟨"/r/b", 7⟩).length ≤ 1 ∧
    (processEntry 1 (processEntry 1 scanInit ⟨"/r/a", "a", EntryKind.file, 5, true⟩)
        ⟨"/r/b", "b", EntryKind.file, 7, true⟩).heap.length = 1 := by
  decide

/-- C3 (amended): after every completed offer — that is, at every entry
boundary of the scan loop — the top-K heap holds at most K records; within a
single offer the push momentarily brings it to at most K+1 records before the
conditional pop restores the bound. -/
theorem C3_capacity_after_offer (limit : Nat) (walk : List WalkEntry) (n : Nat) (r : FileRecord) :
    (((walk.take n).foldl (processEntry limit) scanInit).heap).length ≤ limit ∧
    (heapPush (((walk.take n).foldl (processEntry limit) scanInit).heap) r).length ≤ limit + 1 := by
  have h := foldl_heap_length limit (walk.take n) scanInit (by simp [scanInit])
  refine ⟨h, ?_⟩
  simp only [heapPush, List.length_cons]
  omega

/-! ### Claims about the totals -/

theorem processEntry_total_size (limit : Nat) (st : ScanState) (p nm : String) (sz : Nat) :
    (processEntry limit st ⟨p, nm, EntryKind.file, sz, true⟩).total_size_bytes =
      u64wrap (st.total_size_bytes + sz) := by
  unfold processEntry
  cases hre : rustExtension nm <;> simp [hre]

theorem processEntry_total_files (limit : Nat) (st : ScanState) (p nm : String) (sz : Nat) :
    (processEntry limit st ⟨p, nm, EntryKind.file, sz, true⟩).total_files =
      u64wrap (st.total_files + 1) := by
  unfold processEntry
  cases hre : rustExtension nm <;> simp [hre]

theorem total_size_foldl (limit : Nat) :
    ∀ (walk : List WalkEntry) (st : ScanState), st.total_size_bytes < U64MOD →
      (walk.foldl (processEntry limit) st).total_size_bytes =
        u64wrap (st.total_size_bytes + sumFileSizes walk) := by
  intro walk
  induction walk with
  | nil =>
    intro st hst
    simp only [List.foldl_nil, sumFileSizes, List.filter_nil, List.map_nil, List.sum_nil,
      Nat.add_zero, u64wrap]
    exact (Nat.mod_eq_of_lt hst).symm
  | cons e rest ih =>
    intro st hst
    obtain ⟨p, nm, k, sz, mo⟩ := e
    have hsum : sumFileSizes (⟨p, nm, k, sz, mo⟩ :: rest) =
        (if (mo && (k == EntryKind.file)) = true then sz else 0) + sumFileSizes rest := by
      simp only [sumFileSizes, List.filter_cons]
      split <;> simp
    rw [List.foldl_cons, hsum]
    cases mo
    · rw [show processEntry limit st ⟨p, nm, k, sz, false⟩ = st from rfl, ih st hst]
      simp
    · cases k
      · have hb : (processEntry limit st ⟨p, nm, EntryKind.file, sz, true⟩).total_size_bytes
            < U64MOD := by
          rw [processEntry_total_size]
          exact Nat.mod_lt _ (by norm_num [U64MOD])
        rw [ih _ hb, processEntry_total_size]
        simp only [Bool.and_self, beq_self_eq_true, if_true, u64wrap, U64MOD]
        omega
      · have h1 := ih (processEntry limit st ⟨p, nm, EntryKind.dir, sz, true⟩) (by exact hst)
        rw [h1, show (processEntry limit st ⟨p, nm, EntryKind.dir, sz, true⟩).total_size_bytes
            = st.total_size_bytes from rfl]
        simp
      · rw [show processEntry limit st ⟨p, nm, EntryKind.other, sz, true⟩ = st from rfl,
          ih st hst]
        simp

/-- C8 (counterexample): a scan of two regular files of 2 to the 63 bytes each
(such apparent sizes are reachable with sparse files) returns
total_size_bytes = 0, because the u64 accumulation wraps modulo 2 to the 64,
while the exact sum of the sizes is 2 to the 64. -/
theorem C8_sum_wrap_counterexample :
    (scanStats "/r" 0
        [⟨"/r/a", "a", EntryKind.file, 2 ^ 63, true⟩,
         ⟨"/r/b", "b", EntryKind.file, 2 ^ 63, true⟩]).total_size_bytes = 0 ∧
    sumFileSizes
        [⟨"/r/a", "a", EntryKind.file, 2 ^ 63, true⟩,
         ⟨"/r/b", "b", EntryKind.file, 2 ^ 63, true⟩] = 2 ^ 64 ∧
    (0 : Nat) ≠ 2 ^ 64 := by
  refine ⟨by decide, by decide, by decide⟩

/-- C8 (amended): for every scan, total_size_bytes equals the sum of the sizes
of all visited regular files reduced modulo 2 to the 64 (u64 wrapping
accumulation) — hence the exact sum whenever that sum is representable — and it
is independent of the top_limit K. -/
theorem C8_total_size_additivity (root : String) (limit limit2 : Nat) (walk : List WalkEntry) :
    (scanStats root limit walk).total_size_bytes = sumFileSizes walk % U64MOD ∧
    (sumFileSizes walk < U64MOD → (scanStats root limit walk).total_size_bytes = sumFileSizes walk) ∧
    (scanStats root limit walk).total_size_bytes = (scanStats root limit2 walk).total_size_bytes := by
  have h1 : (scanStats root limit walk).total_size_bytes = sumFileSizes walk % U64MOD := by
    have := total_size_foldl limit walk scanInit (by simp [scanInit, U64MOD])
    simpa [scanStats, scanInit, u64wrap] using this
  have h2 : (scanStats root limit2 walk).total_size_bytes = sumFileSizes walk % U64MOD := by
    have := total_size_foldl limit2 walk scanInit (by simp [scanInit, U64MOD])
    simpa [scanStats, scanInit, u64wrap] using this
  exact ⟨h1, fun hlt => by rw [h1]; exact Nat.mod_eq_of_lt hlt, by rw [h1, h2]⟩

/-- C8 (witness for the amended conditional part): a concrete scan whose sizes
sum below 2 to the 64 returns the exact sum. -/
theorem C8_total_size_additivity_witness :
    sumFileSizes [⟨"/r/a", "a", EntryKind.file, 10, true⟩] < U64MOD ∧
    (scanStats "/r" 3 [⟨"/r/a", "a", EntryKind.file, 10, true⟩]).total_size_bytes =
      sumFileSizes [⟨"/r/a", "a", EntryKind.file, 10, true⟩] :=
  ⟨by decide,
   (C8_total_size_additivity "/r" 3 0 [⟨"/r/a", "a", EntryKind.file, 10, true⟩]).2.1 (by decide)⟩

/-! ### Helper lemmas about extension extraction and the ledger -/

theorem afterLastDot_eq_none : ∀ (cs : List Char), afterLastDot cs = none → '.' ∉ cs := by
  intro cs
  induction cs with
  | nil => intro _ h; exact absurd h (List.not_mem_nil _)
  | cons c cs ih =>
    intro h hmem
    unfold afterLastDot at h
    cases hrec : afterLastDot cs with
    | some e => rw [hrec] at h; exact Option.noConfusion h
    | none =>
      rw [hrec] at h
      have hc : c ≠ '.' := by
        intro hc
        rw [if_pos hc] at h
        exact Option.noConfusion h
      rcases List.mem_cons.1 hmem with hEq | hMem
      · exact hc hEq.symm
      · exact ih hrec hMem

theorem afterLastDot_no_dot : ∀ (cs e : List Char), afterLastDot cs = some e → '.' ∉ e := by
  intro cs
  induction cs with
  | nil => intro e h; exact Option.noConfusion h
  | cons c cs ih =>
    intro e h
    unfold afterLastDot at h
    cases hrec : afterLastDot cs with
    | some e2 =>
      rw [hrec] at h
      exact Option.some_inj.1 h ▸ ih e2 hrec
    | none =>
      rw [hrec] at h
      by_cases hc : c = '.'
      · rw [if_pos hc] at h
        exact Option.some_inj.1 h ▸ afterLastDot_eq_none cs hrec
      · rw [if_neg hc] at h
        exact Option.noConfusion h

theorem toLower_ne_dot (c : Char) (h : c ≠ '.') : Char.toLower c ≠ '.' := by
  simp only [Char.toLower]
  split
  · rename_i hr
    intro hq
    have hv : (c.toNat + 32).isValidChar := Or.inl (by omega)
    have h1 : Char.ofNat (c.toNat + 32) = Char.ofNatAux (c.toNat + 32) hv := by
      simp only [Char.ofNat]
      rw [dif_pos hv]
    rw [h1] at hq
    have h2 := congrArg Char.toNat hq
    have h3 : (Char.ofNatAux (c.toNat + 32) hv).toNat = c.toNat + 32 := rfl
    have h4 : ('.' : Char).toNat = 46 := by decide
    rw [h3, h4] at h2
    omega
  · exact h

theorem rustExtension_no_dot {name ext : String} (h : rustExtension name = some ext) :
    '.' ∉ ext.toList := by
  unfold rustExtension at h
  split at h
  · exact Option.noConfusion h
  · split at h
    · rename_i rest _
      obtain ⟨e, he, hmk⟩ := Option.map_eq_some'.1 h
      have : ext.toList = e := by rw [← hmk]; rfl
      rw [this]
      exact afterLastDot_no_dot rest e he
    · obtain ⟨e, he, hmk⟩ := Option.map_eq_some'.1 h
      have : ext.toList = e := by rw [← hmk]; rfl
      rw [this]
      exact afterLastDot_no_dot _ e he

theorem rustLowercase_no_dot {ext : String} (h : '.' ∉ ext.toList) :
    '.' ∉ (rustLowercase ext).toList := by
  intro hmem
  have : (rustLowercase ext).toList = ext.toList.map Char.toLower := rfl
  rw [this] at hmem
  obtain ⟨c, hc, he⟩ := List.mem_map.1 hmem
  exact toLower_ne_dot c (fun hcd => h (hcd ▸ hc)) he

theorem extLookup_recordExt_self :
    ∀ (m : Extensions) (k : String) (size : Nat),
      extLookup (recordExt m k size) k =
        some ⟨u64wrap (((extLookup m k).getD ⟨0, 0⟩).count + 1),
              u64wrap (((extLookup m k).getD ⟨0, 0⟩).size + size)⟩ := by
  intro m k size
  induction m with
  | nil => simp [recordExt, extLookup]
  | cons p rest ih =>
    obtain ⟨k0, st⟩ := p
    by_cases hk : k0 = k
    · subst hk
      simp [recordExt, extLookup, List.find?]
    · simp only [recordExt, if_neg hk]
      have hbeq : (k0 == k) = false := by simp [hk]
      simp only [extLookup, List.find?, hbeq] at ih ⊢
      exact ih

theorem extLookup_recordExt_other :
    ∀ (m : Extensions) (k : String) (size : Nat) (k2 : String), k2 ≠ k →
      extLookup (recordExt m k size) k2 = extLookup m k2 := by
  intro m k size k2 hne
  induction m with
  | nil =>
    have hbeq : (k == k2) = false := by
      simp only [beq_eq_false_iff_ne, ne_eq]
      exact fun h => hne h.symm
    simp [recordExt, extLookup, List.find?, hbeq]
  | cons p rest ih =>
    obtain ⟨k0, st⟩ := p
    by_cases hk : k0 = k
    · subst hk
      have hbeq : (k0 == k2) = false := by
        simp only [beq_eq_false_iff_ne, ne_eq]
        exact fun h => hne h.symm
      simp [recordExt, extLookup, List.find?, hbeq]
    · simp only [recordExt, if_neg hk]
      by_cases hk2 : k0 = k2
      · subst hk2
        simp [extLookup, List.find?]
      · have hbeq : (k0 == k2) = false := by simp [hk2]
        simp only [extLookup, List.find?, hbeq] at ih ⊢
        exact ih

/-- C9 (confirmed): when the scan loop processes a readable regular file, the
u64 totals are incremented (wrapping, as the source increments u64 counters);
when the file name yields no extension the ledger is left unchanged; when it
yields one, the recorded key is the lower-cased extension, it contains no dot
at all (in particular no leading dot), its ledger entry is bumped by one count
and by the file size, and every other key is untouched. -/
theorem C9_extension_ledger_normalization (limit : Nat) (st : ScanState) (e : WalkEntry)
    (hmeta : e.metaOk = true) (hfile : e.kind = EntryKind.file) :
    (processEntry limit st e).total_files = u64wrap (st.total_files + 1) ∧
    (processEntry limit st e).total_size_bytes = u64wrap (st.total_size_bytes + e.size) ∧
    (rustExtension e.name = none → (processEntry limit st e).extensions = st.extensions) ∧
    (∀ ext, rustExtension e.name = some ext →
      '.' ∉ (rustLowercase ext).toList ∧
      extLookup (processEntry limit st e).extensions (rustLowercase ext) =
        some ⟨u64wrap (((extLookup st.extensions (rustLowercase ext)).getD ⟨0, 0⟩).count + 1),
              u64wrap (((extLookup st.extensions (rustLowercase ext)).getD ⟨0, 0⟩).size + e.size)⟩ ∧
      (∀ k, k ≠ rustLowercase ext →
        extLookup (processEntry limit st e).extensions k = extLookup st.extensions k)) := by
  obtain ⟨p, nm, k, sz, mo⟩ := e
  simp only at hmeta hfile
  subst hmeta hfile
  refine ⟨processEntry_total_files limit st p nm sz, processEntry_total_size limit st p nm sz,
    ?_, ?_⟩
  · intro hre
    unfold processEntry
    simp [hre]
  · intro ext hre
    refine ⟨rustLowercase_no_dot (rustExtension_no_dot hre), ?_, ?_⟩
    · have hext : (processEntry limit st ⟨p, nm, EntryKind.file, sz, true⟩).extensions
          = recordExt st.extensions (rustLowercase ext) sz := by
        unfold processEntry
        simp [hre]
      rw [hext]
      exact extLookup_recordExt_self st.extensions (rustLowercase ext) sz
    · intro k2 hk2
      have hext : (processEntry limit st ⟨p, nm, EntryKind.file, sz, true⟩).extensions
          = recordExt st.extensions (rustLowercase ext) sz := by
        unfold processEntry
        simp [hre]
      rw [hext]
      exact extLookup_recordExt_other st.extensions (rustLowercase ext) sz k2 hk2

/-- C9 (witness): processing the concrete file Report.TXT of 7 bytes from the
empty state bumps the totals and records the key txt (lower-cased, dot-free)
with count 1 and size 7. -/
theorem C9_extension_ledger_normalization_witness :
    (⟨"/d/Report.TXT", "Report.TXT", EntryKind.file, 7, true⟩ : WalkEntry).metaOk = true ∧
    (⟨"/d/Report.TXT", "Report.TXT", EntryKind.file, 7, true⟩ : WalkEntry).kind = EntryKind.file ∧
    rustExtension "Report.TXT" = some "TXT" ∧
    (processEntry 3 scanInit ⟨"/d/Report.TXT", "Report.TXT", EntryKind.file, 7, true⟩).total_files
      = u64wrap (scanInit.total_files + 1) ∧
    '.' ∉ (rustLowercase "TXT").toList ∧
    extLookup (processEntry 3 scanInit
        ⟨"/d/Report.TXT", "Report.TXT", EntryKind.file, 7, true⟩).extensions
        (rustLowercase "TXT") =
      some ⟨u64wrap (((extLookup scanInit.extensions (rustLowercase "TXT")).getD ⟨0, 0⟩).count + 1),
            u64wrap (((extLookup scanInit.extensions (rustLowercase "TXT")).getD ⟨0, 0⟩).size + 7)⟩ := by
  have h := C9_extension_ledger_normalization 3 scanInit
    ⟨"/d/Report.TXT", "Report.TXT", EntryKind.file, 7, true⟩ rfl rfl
  have h2 := h.2.2.2 "TXT" (by decide)
  exact ⟨rfl, rfl, by decide, h.1, h2.1, h2.2.1⟩

/-! ### Claims about the velocity engine -/

/-- C7 (confirmed): whenever either endpoint lookup resolves to no snapshot,
get_velocity returns the fully zeroed report (t_start, t_end, duration, growth
and bytes_per_second all zero, no extension deltas) with only agent_id carried
over — a defined fallback value, not an error. -/
theorem C7_missing_snapshot_fallback (agent : String) (sOpt eOpt : Option AgentSnapshot)
    (ord : ExtMap → ExtMap) (h : sOpt = none ∨ eOpt = none) :
    getVelocity agent sOpt eOpt ord = zeroReport agent := by
  rcases h with h | h
  · subst h
    cases eOpt <;> rfl
  · subst h
    cases sOpt <;> rfl

/-- C7 (witness): both lookups empty at a concrete agent yields the zeroed
report. -/
theorem C7_missing_snapshot_fallback_witness :
    getVelocity "agent-7" none none id = zeroReport "agent-7" :=
  C7_missing_snapshot_fallback "agent-7" none none id (Or.inl rfl)

/-- C4 (counterexample): with a start snapshot of 0 total bytes and an end
snapshot of 2 to the 63 total bytes, the u64 value is converted by the wrapping
cast `as i64` to the i64 minimum, so growth_bytes is minus 2 to the 63, while
the claim requires end minus start, that is plus 2 to the 63.  The cast wraps
in every Rust build profile. -/
theorem C4_growth_cast_counterexample :
    (getVelocity "a" (some ⟨"a", 0, "h", 0, 0, []⟩)
        (some ⟨"a", 10, "h", 2 ^ 63, 0, []⟩) id).growth_bytes = -(2 ^ 63) ∧
    ((2 ^ 63 : Nat) : Int) - ((0 : Nat) : Int) = 2 ^ 63 ∧
    (-(2 ^ 63) : Int) ≠ 2 ^ 63 := by
  refine ⟨by decide, by decide, by decide⟩

/-- C4 (amended): whenever both endpoints resolve, duration_seconds,
growth_bytes and growth_files are the i64-wrapping differences of the snapshot
fields (the u64 fields first pass through the wrapping cast `as i64`); they
equal the exact mathematical differences whenever the totals and counts are
below 2 to the 63 and the timestamp difference fits in i64, as stated here;
bytes_per_second is growth_bytes over duration_seconds when the duration is
positive and 0.0 otherwise, so identical timestamps yield 0.0 and never a
division error. -/
theorem C4_velocity_arithmetic (agent : String) (s e : AgentSnapshot) (ord : ExtMap → ExtMap)
    (hs : s.total_size_bytes < 2 ^ 63) (he : e.total_size_bytes < 2 ^ 63)
    (hfs : s.file_count < 2 ^ 63) (hfe : e.file_count < 2 ^ 63)
    (hd1 : -(2 ^ 63) ≤ e.timestamp - s.timestamp) (hd2 : e.timestamp - s.timestamp < 2 ^ 63) :
    (getVelocity agent (some s) (some e) ord).duration_seconds = e.timestamp - s.timestamp ∧
    (getVelocity agent (some s) (some e) ord).growth_bytes =
      (e.total_size_bytes : Int) - (s.total_size_bytes : Int) ∧
    (getVelocity agent (some s) (some e) ord).growth_files =
      (e.file_count : Int) - (s.file_count : Int) ∧
    (getVelocity agent (some s) (some e) ord).bytes_per_second =
      (if 0 < (getVelocity agent (some s) (some e) ord).duration_seconds
       then ((getVelocity agent (some s) (some e) ord).growth_bytes : Rat) /
         ((getVelocity agent (some s) (some e) ord).duration_seconds : Rat)
       else 0) ∧
    (s.timestamp = e.timestamp →
      (getVelocity agent (some s) (some e) ord).bytes_per_second = 0) := by
  have hdur : (getVelocity agent (some s) (some e) ord).duration_seconds
      = i64sub e.timestamp s.timestamp := rfl
  have h1 : i64sub e.timestamp s.timestamp = e.timestamp - s.timestamp :=
    i64wrap_eq_self hd1 hd2
  have hcs : ((s.total_size_bytes : Int) : Int) < 2 ^ 63 := by exact_mod_cast hs
  have hce : ((e.total_size_bytes : Int) : Int) < 2 ^ 63 := by exact_mod_cast he
  have hfs2 : ((s.file_count : Int) : Int) < 2 ^ 63 := by exact_mod_cast hfs
  have hfe2 : ((e.file_count : Int) : Int) < 2 ^ 63 := by exact_mod_cast hfe
  have hns : (0 : Int) ≤ (s.total_size_bytes : Int) := Int.natCast_nonneg _
  have hne : (0 : Int) ≤ (e.total_size_bytes : Int) := Int.natCast_nonneg _
  have hnfs : (0 : Int) ≤ (s.file_count : Int) := Int.natCast_nonneg _
  have hnfe : (0 : Int) ≤ (e.file_count : Int) := Int.natCast_nonneg _
  have h2 : i64sub (u64ToI64 e.total_size_bytes) (u64ToI64 s.total_size_bytes)
      = (e.total_size_bytes : Int) - (s.total_size_bytes : Int) := by
    rw [u64ToI64_eq_self he, u64ToI64_eq_self hs]
    exact i64wrap_eq_self (by omega) (by omega)
  have h3 : i64sub (u64ToI64 e.file_count) (u64ToI64 s.file_count)
      = (e.file_count : Int) - (s.file_count : Int) := by
    rw [u64ToI64_eq_self hfe, u64ToI64_eq_self hfs]
    exact i64wrap_eq_self (by omega) (by omega)
  refine ⟨hdur.trans h1, h2, h3, rfl, ?_⟩
  intro hts
  have hz : i64sub e.timestamp s.timestamp = 0 := by
    rw [h1, hts]
    omega
  have hb : (getVelocity agent (some s) (some e) ord).bytes_per_second =
      if 0 < i64sub e.timestamp s.timestamp
      then ((i64sub (u64ToI64 e.total_size_bytes) (u64ToI64 s.total_size_bytes) : Int) : Rat) /
        ((i64sub e.timestamp s.timestamp : Int) : Rat)
      else 0 := rfl
  rw [hb, hz]
  simp

/-- C4 (witness): the arithmetic at the concrete snapshot pair of the spec
(timestamps 100 and 200, totals 1000 and 1500 bytes, 10 and 12 files). -/
theorem C4_velocity_arithmetic_witness :
    (getVelocity "a" (some ⟨"a", 100, "h", 1000, 10, []⟩)
        (some ⟨"a", 200, "h", 1500, 12, []⟩) id).duration_seconds = ((200 : Int) - 100) ∧
    (getVelocity "a" (some ⟨"a", 100, "h", 1000, 10, []⟩)
        (some ⟨"a", 200, "h", 1500, 12, []⟩) id).growth_bytes = (((1500 : Nat) : Int) - ((1000 : Nat) : Int)) ∧
    (getVelocity "a" (some ⟨"a", 100, "h", 1000, 10, []⟩)
        (some ⟨"a", 200, "h", 1500, 12, []⟩) id).growth_files = (((12 : Nat) : Int) - ((10 : Nat) : Int)) := by
  have h := C4_velocity_arithmetic "a" ⟨"a", 100, "h", 1000, 10, []⟩ ⟨"a", 200, "h", 1500, 12, []⟩
    id (by norm_num) (by norm_num) (by norm_num) (by norm_num) (by norm_num) (by norm_num)
  exact ⟨h.1, h.2.1, h.2.2.1⟩

/-- C10 (confirmed): in a non-fallback report, t_start and t_end are the
timestamps of the two resolved snapshots, not the requested query bounds; a
non-positive duration always yields bytes_per_second 0.0; and a concrete store
exhibits resolved timestamps that differ from the requested bounds, with the
end boundary resolving to an older snapshot than the start boundary, a
negative duration_seconds and bytes_per_second 0.0. -/
theorem C10_resolved_timestamps :
    (∀ (agent : String) (s e : AgentSnapshot) (ord : ExtMap → ExtMap),
      (getVelocity agent (some s) (some e) ord).t_start = s.timestamp ∧
      (getVelocity agent (some s) (some e) ord).t_end = e.timestamp ∧
      ((getVelocity agent (some s) (some e) ord).duration_seconds ≤ 0 →
        (getVelocity agent (some s) (some e) ord).bytes_per_second = 0)) ∧
    ((getVelocityHandler [⟨"ag", 100, "h", 500, 5, []⟩, ⟨"ag", 50, "h", 800, 8, []⟩]
        "ag" 150 60 id).t_start = 100 ∧
     (getVelocityHandler [⟨"ag", 100, "h", 500, 5, []⟩, ⟨"ag", 50, "h", 800, 8, []⟩]
        "ag" 150 60 id).t_end = 50 ∧
     (100 : Int) ≠ 150 ∧ (50 : Int) ≠ 60 ∧
     (getVelocityHandler [⟨"ag", 100, "h", 500, 5, []⟩, ⟨"ag", 50, "h", 800, 8, []⟩]
        "ag" 150 60 id).duration_seconds = -50 ∧
     (getVelocityHandler [⟨"ag", 100, "h", 500, 5, []⟩, ⟨"ag", 50, "h", 800, 8, []⟩]
        "ag" 150 60 id).bytes_per_second = 0) := by
  constructor
  · intro agent s e ord
    refine ⟨rfl, rfl, ?_⟩
    intro h
    have hdur : (getVelocity agent (some s) (some e) ord).duration_seconds
        = i64sub e.timestamp s.timestamp := rfl
    rw [hdur] at h
    have hb : (getVelocity agent (some s) (some e) ord).bytes_per_second =
        if 0 < i64sub e.timestamp s.timestamp
        then ((i64sub (u64ToI64 e.total_size_bytes) (u64ToI64 s.total_size_bytes) : Int) : Rat) /
          ((i64sub e.timestamp s.timestamp : Int) : Rat)
        else 0 := rfl
    rw [hb, if_neg (not_lt.2 h)]
  · refine ⟨by decide, by decide, by decide, by decide, by decide, by decide⟩

/-- C10 (witness): the non-positive-duration branch applied at two snapshots
with equal timestamps gives bytes_per_second 0. -/
theorem C10_resolved_timestamps_witness :
    (getVelocity "a" (some ⟨"a", 7, "h", 3, 1, []⟩) (some ⟨"a", 7, "h", 9, 2, []⟩) id).bytes_per_second
      = 0 :=
  (C10_resolved_timestamps.1 "a" ⟨"a", 7, "h", 3, 1, []⟩ ⟨"a", 7, "h", 9, 2, []⟩ id).2.2 (by decide)

/-! ### Helper lemmas about the start-extension map -/

theorem mapGet_eq_none_iff (m : ExtMap) (x : String) :
    mapGet m x = none ↔ ∀ p ∈ m, p.1 ≠ x := by
  unfold mapGet
  rw [Option.map_eq_none', List.find?_eq_none]
  constructor
  · intro h p hp
    have := h p hp
    simpa using this
  · intro h p hp
    simpa using h p hp

theorem mapGet_cons_of_eq {p : String × Nat × Nat} {rest : ExtMap} {x : String}
    (h : p.1 = x) : mapGet (p :: rest) x = some p.2 := by
  have hb : (p.1 == x) = true := by simp [h]
  simp [mapGet, List.find?, hb]

theorem mapGet_cons_of_ne {p : String × Nat × Nat} {rest : ExtMap} {x : String}
    (h : p.1 ≠ x) : mapGet (p :: rest) x = mapGet rest x := by
  have hb : (p.1 == x) = false := by simp [h]
  simp [mapGet, List.find?, hb]

theorem mapRemove_cons_of_eq {p : String × Nat × Nat} {rest : ExtMap} {k : String}
    (h : p.1 = k) : mapRemove (p :: rest) k = mapRemove rest k := by
  have hb : (p.1 == k) = true := by simp [h]
  simp [mapRemove, List.filter_cons, hb]

theorem mapRemove_cons_of_ne {p : String × Nat × Nat} {rest : ExtMap} {k : String}
    (h : p.1 ≠ k) : mapRemove (p :: rest) k = p :: mapRemove rest k := by
  have hb : (p.1 == k) = false := by simp [h]
  simp [mapRemove, List.filter_cons, hb]

theorem mapRemove_get_other (m : ExtMap) (k x : String) (hne : x ≠ k) :
    mapGet (mapRemove m k) x = mapGet m x := by
  induction m with
  | nil => rfl
  | cons p rest ih =>
    by_cases hk : p.1 = k
    · have hx : p.1 ≠ x := by
        rw [hk]
        exact fun h => hne h.symm
      rw [mapRemove_cons_of_eq hk, mapGet_cons_of_ne hx]
      exact ih
    · rw [mapRemove_cons_of_ne hk]
      by_cases hx : p.1 = x
      · rw [mapGet_cons_of_eq hx, mapGet_cons_of_eq hx]
      · rw [mapGet_cons_of_ne hx, mapGet_cons_of_ne hx]
        exact ih

theorem mapRemove_of_get_none (m : ExtMap) (x : String) (h : mapGet m x = none) :
    mapRemove m x = m := by
  unfold mapRemove
  rw [List.filter_eq_self]
  intro p hp
  have := (mapGet_eq_none_iff m x).1 h p hp
  simpa using this

theorem mapGet_append (m1 m2 : ExtMap) (x : String) :
    mapGet (m1 ++ m2) x = ((mapGet m1 x).orElse (fun _ => mapGet m2 x)) := by
  induction m1 with
  | nil => simp [mapGet]
  | cons p rest ih =>
    by_cases hx : p.1 = x
    · have hbx : (p.1 == x) = true := by simp [hx]
      simp [mapGet, List.find?, hbx]
    · have hbx : (p.1 == x) = false := by simp [hx]
      simp only [List.cons_append, mapGet, List.find?, hbx] at ih ⊢
      exact ih

theorem foldl_mapInsert (l : List (String × Nat × Nat)) :
    ∀ (acc : ExtMap), (l.map (fun t => t.1)).Nodup →
      (∀ t ∈ l, mapGet acc t.1 = none) →
      l.foldl (fun m t => mapInsert m t.1 t.2) acc = acc ++ l := by
  induction l with
  | nil => intro acc _ _; simp
  | cons t rest ih =>
    intro acc hnd hdis
    have hnd2 : (t.1 ∉ rest.map (fun t2 => t2.1)) ∧ (rest.map (fun t2 => t2.1)).Nodup := by
      have h0 : ((t :: rest).map (fun t2 => t2.1)).Nodup := hnd
      rw [List.map_cons, List.nodup_cons] at h0
      exact h0
    have hacc : mapGet acc t.1 = none := hdis t (List.mem_cons_self t rest)
    have hins : mapInsert acc t.1 t.2 = acc ++ [t] := by
      unfold mapInsert
      rw [mapRemove_of_get_none acc t.1 hacc]
    rw [List.foldl_cons, hins, ih (acc ++ [t]) hnd2.2 ?_]
    · simp
    · intro r hr
      rw [mapGet_append]
      have h1 : mapGet acc r.1 = none := hdis r (List.mem_cons_of_mem t hr)
      have h2 : mapGet [t] r.1 = none := by
        rw [mapGet_eq_none_iff]
        intro p hp
        have hpt : p = t := by simpa using hp
        subst hpt
        intro hcontra
        exact hnd2.1 (hcontra ▸ List.mem_map_of_mem (fun t2 => t2.1) hr)
      rw [h1, h2]
      rfl

theorem buildStartMap_of_nodup (l : List (String × Nat × Nat))
    (hnd : (l.map (fun t => t.1)).Nodup) : buildStartMap l = l := by
  unfold buildStartMap
  rw [foldl_mapInsert l [] hnd (fun t _ => rfl)]
  simp

theorem endDeltaOf_extension (m : ExtMap) (t : String × Nat × Nat) :
    (endDeltaOf m t).extension = t.1 := by
  rcases h : mapGet m t.1 with _ | ⟨ss, sc⟩ <;> simp [endDeltaOf, h]

theorem endDeltaOf_congr (m1 m2 : ExtMap) (t : String × Nat × Nat)
    (h : mapGet m1 t.1 = mapGet m2 t.1) : endDeltaOf m1 t = endDeltaOf m2 t := by
  unfold endDeltaOf
  rw [h]

/-- Characterization of the end-extensions loop when the end snapshot lists
pairwise distinct extensions: the pushed deltas are the pointwise image of the
end list under the delta of the original map, and the residual map holds
exactly the bindings whose key occurs in no end triple. -/
theorem processEndExts_char :
    ∀ (ends : List (String × Nat × Nat)) (m : ExtMap),
      (ends.map (fun t => t.1)).Nodup →
      (processEndExts m ends).1 = ends.map (endDeltaOf m) ∧
      (processEndExts m ends).2 =
        m.filter (fun p => decide (p.1 ∉ ends.map (fun t => t.1))) := by
  intro ends
  induction ends with
  | nil =>
    intro m _
    constructor
    · rfl
    · have h0 : (processEndExts m []).2 = m := rfl
      rw [h0, eq_comm, List.filter_eq_self]
      intro p _
      simp
  | cons t rest ih =>
    intro m hnd
    obtain ⟨x, es, ec⟩ := t
    have hnd2 : (x ∉ rest.map (fun t2 => t2.1)) ∧ (rest.map (fun t2 => t2.1)).Nodup := by
      have h0 : (((x, es, ec) :: rest).map (fun t2 => t2.1)).Nodup := hnd
      rw [List.map_cons, List.nodup_cons] at h0
      exact h0
    have hx : x ∉ rest.map (fun t2 => t2.1) := hnd2.1
    have hrest : (rest.map (fun t2 => t2.1)).Nodup := hnd2.2
    rcases hget : mapGet m x with _ | ⟨ss, sc⟩
    · have hih := ih m hrest
      constructor
      · simp only [processEndExts, hget, List.map_cons]
        rw [hih.1]
        congr 1
        simp [endDeltaOf, hget]
      · simp only [processEndExts, hget]
        rw [hih.2]
        apply List.filter_congr
        intro p hp
        have hpx : p.1 ≠ x := (mapGet_eq_none_iff m x).1 hget p hp
        simp [hpx]
    · have hih := ih (mapRemove m x) hrest
      constructor
      · simp only [processEndExts, hget, List.map_cons]
        rw [hih.1]
        congr 1
        · simp [endDeltaOf, hget]
        · apply List.map_congr_left
          intro r hr
          apply endDeltaOf_congr
          apply mapRemove_get_other
          intro hcontra
          exact hx (hcontra ▸ List.mem_map_of_mem (fun t2 => t2.1) hr)
      · simp only [processEndExts, hget]
        rw [hih.2]
        unfold mapRemove
        rw [List.filter_filter]
        apply List.filter_congr
        intro p _
        by_cases h1 : p.1 = x
        · simp [h1]
        · by_cases h2 : p.1 ∈ rest.map (fun t2 => t2.1) <;> simp [h1, h2]

theorem residualDeltas_eq_map (m : ExtMap) : residualDeltas m = m.map goneDeltaOf := rfl

/-- C5 (counterexample): a resolved end snapshot whose top_extensions lists the
extension a twice makes get_velocity emit two deltas for a — the first
occurrence consumes the (absent) start entry and the second is treated as new
again — so the report does not hold exactly one entry per extension. -/
theorem C5_duplicate_extension_counterexample :
    (getVelocity "x" (some ⟨"x", 0, "h", 0, 0, []⟩)
        (some ⟨"x", 5, "h", 0, 0, [("a", 1, 1), ("a", 1, 1)]⟩) id).extension_deltas =
      [⟨"a", 1, 1⟩, ⟨"a", 1, 1⟩] ∧
    ((getVelocity "x" (some ⟨"x", 0, "h", 0, 0, []⟩)
        (some ⟨"x", 5, "h", 0, 0, [("a", 1, 1), ("a", 1, 1)]⟩) id).extension_deltas.filter
      (fun d => d.extension == "a")).length = 2 := by
  refine ⟨by decide, by decide⟩

/-- C5 (amended): assuming each snapshot lists pairwise distinct extensions,
extension_deltas is a permutation of: one delta per end-snapshot extension
(the wrapping i64 difference end minus start when the extension existed at
start, the cast end values when it is new), followed by one delta per
start-only extension (the wrapping i64 negation of its start values); in
particular the deltas carry pairwise distinct extensions — exactly one entry
per extension present in either snapshot.  The i64 values equal the exact
signed differences whenever the involved sizes and counts are below 2 to
the 63. -/
theorem C5_delta_reconciliation (agent : String) (s e : AgentSnapshot) (ord : ExtMap → ExtMap)
    (hord : ∀ l, (ord l).Perm l)
    (hs : (s.top_extensions.map (fun t => t.1)).Nodup)
    (he : (e.top_extensions.map (fun t => t.1)).Nodup) :
    ((getVelocity agent (some s) (some e) ord).extension_deltas).Perm
      (e.top_extensions.map (endDeltaOf s.top_extensions) ++
        (s.top_extensions.filter
          (fun t => decide (t.1 ∉ e.top_extensions.map (fun t2 => t2.1)))).map goneDeltaOf) ∧
    (((getVelocity agent (some s) (some e) ord).extension_deltas).map
      (fun d => d.extension)).Nodup := by
  have hb : buildStartMap s.top_extensions = s.top_extensions := buildStartMap_of_nodup _ hs
  have hc := processEndExts_char e.top_extensions (buildStartMap s.top_extensions) he
  rw [hb] at hc
  have hdeltas : (getVelocity agent (some s) (some e) ord).extension_deltas =
      sortDeltas ((processEndExts (buildStartMap s.top_extensions) e.top_extensions).1 ++
        residualDeltas (ord (processEndExts (buildStartMap s.top_extensions) e.top_extensions).2)) :=
    rfl
  have hperm : ((getVelocity agent (some s) (some e) ord).extension_deltas).Perm
      (e.top_extensions.map (endDeltaOf s.top_extensions) ++
        (s.top_extensions.filter
          (fun t => decide (t.1 ∉ e.top_extensions.map (fun t2 => t2.1)))).map goneDeltaOf) := by
    rw [hdeltas, hb, hc.1, hc.2]
    refine (List.perm_insertionSort deltaGE _).trans ?_
    apply List.Perm.append_left
    rw [residualDeltas_eq_map]
    exact (hord _).map goneDeltaOf
  refine ⟨hperm, ?_⟩
  have hkeys : (((getVelocity agent (some s) (some e) ord).extension_deltas).map
      (fun d => d.extension)).Perm
      ((e.top_extensions.map (fun t => t.1)) ++
        ((s.top_extensions.filter
          (fun t => decide (t.1 ∉ e.top_extensions.map (fun t2 => t2.1)))).map (fun t => t.1))) := by
    have h1 := hperm.map (fun d => d.extension)
    rw [List.map_append, List.map_map, List.map_map] at h1
    have h2 : ((fun d : ExtensionDelta => d.extension) ∘ endDeltaOf s.top_extensions)
        = fun t : String × Nat × Nat => t.1 := by
      funext t
      exact endDeltaOf_extension s.top_extensions t
    have h3 : ((fun d : ExtensionDelta => d.extension) ∘ goneDeltaOf)
        = fun t : String × Nat × Nat => t.1 := by
      funext t
      rfl
    rw [h2, h3] at h1
    exact h1
  rw [List.Perm.nodup_iff hkeys]
  rw [List.nodup_append]
  refine ⟨he, ?_, ?_⟩
  · have hsub : (s.top_extensions.filter
        (fun t => decide (t.1 ∉ e.top_extensions.map (fun t2 => t2.1)))).map (fun t => t.1)
        |>.Sublist (s.top_extensions.map (fun t => t.1)) :=
      (List.filter_sublist s.top_extensions).map (fun t => t.1)
    exact hs.sublist hsub
  · intro x hx1 hx2
    obtain ⟨t, ht, hteq⟩ := List.mem_map.1 hx2
    have := List.of_mem_filter ht
    have hnotin : t.1 ∉ e.top_extensions.map (fun t2 => t2.1) := of_decide_eq_true this
    exact hnotin (hteq ▸ hx1)

/-- C5 (witness): the reconciliation at the concrete snapshots of the spec
(start log 100 bytes 1 file; end log 50 bytes 1 file and tmp 20 bytes 2
files). -/
theorem C5_delta_reconciliation_witness :
    ((getVelocity "w" (some ⟨"w", 0, "h", 100, 1, [("log", 100, 1)]⟩)
        (some ⟨"w", 10, "h", 70, 3, [("log", 50, 1), ("tmp", 20, 2)]⟩) id).extension_deltas).Perm
      ([("log", 50, 1), ("tmp", 20, 2)].map (endDeltaOf [("log", 100, 1)]) ++
        ([("log", 100, 1)].filter
          (fun t => decide (t.1 ∉ [("log", 50, 1), ("tmp", 20, 2)].map (fun t2 => t2.1)))).map
          goneDeltaOf) ∧
    (((getVelocity "w" (some ⟨"w", 0, "h", 100, 1, [("log", 100, 1)]⟩)
        (some ⟨"w", 10, "h", 70, 3, [("log", 50, 1), ("tmp", 20, 2)]⟩) id).extension_deltas).map
      (fun d => d.extension)).Nodup :=
  C5_delta_reconciliation "w" ⟨"w", 0, "h", 100, 1, [("log", 100, 1)]⟩
    ⟨"w", 10, "h", 70, 3, [("log", 50, 1), ("tmp", 20, 2)]⟩ id
    (fun l => List.Perm.refl l) (by decide) (by decide)

/-- C6 (counterexample): the relative order of tied disappeared extensions is
the HashMap iteration order over the residual start map, which in Rust is
randomized per map and is not a function of the snapshots: on the same pair of
snapshots (extensions a and b both vanishing with equal absolute size impact),
two admissible iteration orders produce two different extension_deltas
sequences, so the ordering is not deterministic for the same input. -/
theorem C6_hash_order_counterexample :
    (∀ l : ExtMap, (List.reverse l).Perm l) ∧
    (getVelocity "x" (some ⟨"x", 0, "h", 0, 0, [("a", 10, 1), ("b", 10, 1)]⟩)
        (some ⟨"x", 5, "h", 0, 0, []⟩) id).extension_deltas =
      [⟨"a", -10, -1⟩, ⟨"b", -10, -1⟩] ∧
    (getVelocity "x" (some ⟨"x", 0, "h", 0, 0, [("a", 10, 1), ("b", 10, 1)]⟩)
        (some ⟨"x", 5, "h", 0, 0, []⟩) List.reverse).extension_deltas =
      [⟨"b", -10, -1⟩, ⟨"a", -10, -1⟩] ∧
    (getVelocity "x" (some ⟨"x", 0, "h", 0, 0, [("a", 10, 1), ("b", 10, 1)]⟩)
        (some ⟨"x", 5, "h", 0, 0, []⟩) id).extension_deltas ≠
      (getVelocity "x" (some ⟨"x", 0, "h", 0, 0, [("a", 10, 1), ("b", 10, 1)]⟩)
        (some ⟨"x", 5, "h", 0, 0, []⟩) List.reverse).extension_deltas :=
  ⟨fun l => List.reverse_perm l, by decide, by decide, by decide⟩

/-- C6 (amended): extension_deltas is always sorted descending by the i64
absolute value of size_delta (the stable sort of the source comparator), and
its content as a multiset does not depend on the hash iteration order; but the
relative order of tied disappeared entries follows that iteration order, which
is not deterministic for the same input (see the counterexample). -/
theorem C6_delta_sorting (agent : String) (sOpt eOpt : Option AgentSnapshot)
    (ord ord2 : ExtMap → ExtMap) (hord : ∀ l, (ord l).Perm l) (hord2 : ∀ l, (ord2 l).Perm l) :
    List.Sorted deltaGE ((getVelocity agent sOpt eOpt ord).extension_deltas) ∧
    ((getVelocity agent sOpt eOpt ord).extension_deltas).Perm
      ((getVelocity agent sOpt eOpt ord2).extension_deltas) := by
  cases sOpt with
  | none =>
    cases eOpt <;> exact ⟨List.sorted_nil, List.Perm.refl _⟩
  | some s =>
    cases eOpt with
    | none => exact ⟨List.sorted_nil, List.Perm.refl _⟩
    | some e =>
      constructor
      · exact List.sorted_insertionSort deltaGE _
      · have h1 : (getVelocity agent (some s) (some e) ord).extension_deltas =
            sortDeltas ((processEndExts (buildStartMap s.top_extensions) e.top_extensions).1 ++
              residualDeltas (ord (processEndExts (buildStartMap s.top_extensions) e.top_extensions).2)) :=
          rfl
        have h2 : (getVelocity agent (some s) (some e) ord2).extension_deltas =
            sortDeltas ((processEndExts (buildStartMap s.top_extensions) e.top_extensions).1 ++
              residualDeltas (ord2 (processEndExts (buildStartMap s.top_extensions) e.top_extensions).2)) :=
          rfl
        rw [h1, h2]
        refine (List.perm_insertionSort deltaGE _).trans (List.Perm.trans ?_
          (List.perm_insertionSort deltaGE _).symm)
        apply List.Perm.append_left
        rw [residualDeltas_eq_map, residualDeltas_eq_map]
        exact ((hord _).map goneDeltaOf).trans ((hord2 _).map goneDeltaOf).symm

/-- C6 (witness): sortedness and order-independence of the delta multiset at a
concrete snapshot pair. -/
theorem C6_delta_sorting_witness :
    List.Sorted deltaGE ((getVelocity "w" (some ⟨"w", 0, "h", 9, 9, [("a", 3, 1)]⟩)
      (some ⟨"w", 4, "h", 9, 9, [("b", 8, 2)]⟩) id).extension_deltas) ∧
    ((getVelocity "w" (some ⟨"w", 0, "h", 9, 9, [("a", 3, 1)]⟩)
      (some ⟨"w", 4, "h", 9, 9, [("b", 8, 2)]⟩) id).extension_deltas).Perm
      ((getVelocity "w" (some ⟨"w", 0, "h", 9, 9, [("a", 3, 1)]⟩)
        (some ⟨"w", 4, "h", 9, 9, [("b", 8, 2)]⟩) id).extension_deltas) :=
  C6_delta_sorting "w" (some ⟨"w", 0, "h", 9, 9, [("a", 3, 1)]⟩)
    (some ⟨"w", 4, "h", 9, 9, [("b", 8, 2)]⟩) id id
    (fun l => List.Perm.refl l) (fun l => List.Perm.refl l)

end Spectra
